import Mathlib

/-!
Verification development for `seekube_telegram_watcher.py`.

The Python source is shallowly embedded below: strings are modelled as
`String` / `List Char`, the sqlite `seen` table as an association list
`List (String × String)` (id, first_seen_utc), the Playwright page and the
Telegram transport as oracles inside a `Config`, and `check_once` as a
fuelled recursion over page numbers that threads an explicit state and
emits an event trace.
-/

namespace Watcher

/-- Python `\s` / `str.strip()` whitespace class, restricted to ASCII
(space, tab, newline, carriage return, vertical tab, form feed). -/
def pyIsSpace (c : Char) : Bool :=
  c == ' ' || c == '\t' || c == '\n' || c == '\r' || c == Char.ofNat 11 || c == Char.ofNat 12

/-- Python `str.strip()`: drop whitespace from both ends. -/
def trimWs (cs : List Char) : List Char :=
  ((cs.dropWhile pyIsSpace).reverse.dropWhile pyIsSpace).reverse

/-- Python `re.sub(r"\s+", " ", s)`: collapse each maximal whitespace run to
one space (the single space is emitted at the last character of the run). -/
def collapseWs : List Char → List Char
  | [] => []
  | [c] => if pyIsSpace c then [' '] else [c]
  | c1 :: c2 :: rest =>
    if pyIsSpace c1 && pyIsSpace c2 then collapseWs (c2 :: rest)
    else if pyIsSpace c1 then ' ' :: collapseWs (c2 :: rest)
    else c1 :: collapseWs (c2 :: rest)

/-- Python substring test `sub in hay`. -/
def listContains (needle : List Char) : List Char → Bool
  | [] => needle.isEmpty
  | c :: rest => needle.isPrefixOf (c :: rest) || listContains needle rest

/-- `looks_like_login_or_challenge` (source lines 126-129): lowercase the
final URL joined with the first 4000 characters of the page text and look
for any heuristic marker. -/
def looks_like_login_or_challenge (currentUrl pageText : String) : Bool :=
  let lower := (currentUrl ++ " " ++ String.mk (pageText.data.take 4000)).data.map Char.toLower
  ["login", "auth", "just a moment", "verify you are", "cloudflare"].any
    (fun m => listContains m.data lower)

/-- The literal `page=` scanned for by `paginate_url`. -/
def pagePat : List Char := "page=".data

/-- Is the head character a decimal digit (`\d`)? -/
def isDigitHead : List Char → Bool
  | [] => false
  | c :: _ => c.isDigit

/-- `re.sub(r"([?&])page=\d+", rf"\1page={n}", url)`: scan left to right;
at each `?`/`&` followed by `page=` and at least one digit, keep the
delimiter, emit `page=` with the new number, consume the digit run
(greedy `\d+`), and continue after it; otherwise copy one character.
The fuel bounds the characters consumed; `subPage` supplies enough. -/
def subPageF (n : Nat) : Nat → List Char → List Char
  | 0, cs => cs
  | _ + 1, [] => []
  | fuel + 1, c :: rest =>
    if (c == '?' || c == '&') && pagePat.isPrefixOf rest && isDigitHead (rest.drop 5) then
      c :: (pagePat ++ (Nat.repr n).data ++ subPageF n fuel ((rest.drop 5).dropWhile Char.isDigit))
    else c :: subPageF n fuel rest

/-- The regex substitution of `paginate_url`, with the fuel discharged. -/
def subPage (n : Nat) (cs : List Char) : List Char := subPageF n cs.length cs

/-- `paginate_url` (source lines 120-124). -/
def paginate_url (url : String) (pageNum : Nat) : String :=
  if listContains pagePat url.data then String.mk (subPage pageNum url.data)
  else url ++ (if listContains ['?'] url.data then "&" else "?") ++ "page=" ++ Nat.repr pageNum

/-- The literal path pattern of `JOB_HREF_RE` (source line 47). -/
def jobPat : List Char := "/jobdating/jobs/".data

/-- `JOB_HREF_RE.search(href)`: some position starts `/jobdating/jobs/`
followed by at least one digit. -/
def hasJobPat : List Char → Bool
  | [] => false
  | c :: rest =>
    (jobPat.isPrefixOf (c :: rest) && isDigitHead ((c :: rest).drop jobPat.length))
      || hasJobPat rest

/-- Python `s.split(sep, maxsplit)` on a character separator. -/
def pySplitCh (sep : Char) : Nat → List Char → List (List Char)
  | 0, cs => [cs]
  | m + 1, cs =>
    if cs.any (fun c => c == sep) then
      cs.takeWhile (fun c => c != sep) :: pySplitCh sep m ((cs.dropWhile (fun c => c != sep)).tail)
    else [cs]

/-- Does the href start with `/` (Python `href.startswith("/")`)? -/
def startsSlash : List Char → Bool
  | '/' :: _ => true
  | _ => false

/-- Relative-link normalization of source lines 109-112:
`base = page.url.split("/", 3)[:3]; href = base[0] + "//" + base[2] + href`.
(Indexing out of range would raise in Python; it is unreachable for the
absolute `page.url` values the renderer produces, and is modelled by `getD`.) -/
def resolveHref (pageUrl href : List Char) : List Char :=
  if startsSlash href then
    let base := pySplitCh '/' 3 pageUrl
    (base.getD 0 []) ++ ['/', '/'] ++ (base.getD 2 []) ++ href
  else href

/-- One anchor element as returned by
`page.query_selector_all('a[href*="/jobdating/jobs/"]')`: its `href`
attribute (`get_attribute("href") or ""`), its own inner text, and the
inner text of the nearest card-like ancestor (`none` models the locator
lookup raising). -/
structure Anchor where
  href : String
  innerText : String
  parentText : Option String
deriving DecidableEq

/-- One job posting dict `{"id": href, "title": title, "url": href}`. -/
structure Job where
  id : String
  title : String
  url : String
deriving DecidableEq

/-- The title derivation of `extract_jobs_from_page` (source lines
101-108): anchor text, else card-ancestor text (empty if the locator
raises), whitespace collapsed and trimmed, else the fixed placeholder. -/
def anchorTitle (a : Anchor) : String :=
  let t1 := trimWs a.innerText.data
  let t2 :=
    if t1.isEmpty then
      match a.parentText with
      | some s => trimWs s.data
      | none => []
    else t1
  let t3 := trimWs (collapseWs t2)
  if t3.isEmpty then "Seekube job" else String.mk t3

/-- The per-anchor body of the loop in `extract_jobs_from_page`
(source lines 97-113); `none` when the `continue` branch fires. -/
def anchorJob (pageUrl : String) (a : Anchor) : Option Job :=
  if (trimWs a.href.data).isEmpty || !hasJobPat (trimWs a.href.data) then none
  else
    some { id := String.mk (resolveHref pageUrl.data (trimWs a.href.data))
         , title := anchorTitle a
         , url := String.mk (resolveHref pageUrl.data (trimWs a.href.data)) }

/-- `uniq[j["id"]] = j` on a Python dict: a present key keeps its position
and takes the new value; a fresh key is appended. -/
def dictInsert (l : List (String × Job)) (k : String) (v : Job) : List (String × Job) :=
  if l.any (fun p => p.1 == k) then
    l.map (fun p => if p.1 == k then (k, v) else p)
  else l ++ [(k, v)]

/-- `extract_jobs_from_page` (source lines 94-118): filter/normalize the
anchors, then dedupe by id through a dict and return its values. -/
def extract_jobs_from_page (pageUrl : String) (anchors : List Anchor) : List Job :=
  let jobs := anchors.filterMap (anchorJob pageUrl)
  (jobs.foldl (fun u j => dictInsert u j.id j) []).map Prod.snd

/-- `seen` (source lines 67-68): is there a row for this id? -/
def seenL (l : List (String × String)) (id : String) : Bool :=
  l.any (fun p => p.1 == id)

/-- `mark_seen` (source lines 70-73): `INSERT OR IGNORE` of
`(id, first_seen_utc)` into a table whose primary key is `id`. -/
def markSeen (l : List (String × String)) (id t : String) : List (String × String) :=
  if seenL l id then l else l ++ [(id, t)]

/-- The rows of the `seen` table holding a given id. -/
def rowsFor (l : List (String × String)) (id : String) : List (String × String) :=
  l.filter (fun p => p.1 == id)

/-- `format_msg` (source lines 91-92). -/
def format_msg (title href : String) : String :=
  "🆕 New Seekube job:\n\n" ++ title ++ "\n" ++ href

/-- Outcome of `page.goto(url, ...)`: a rendered page (final URL after
redirects, `page.content()` text, and the job-anchor query results), or a
raised navigation timeout. -/
inductive NavResult where
  | timeout
  | page (finalUrl : String) (content : String) (anchors : List Anchor)

/-- Observable events of one run: a `page.goto` call, a `send_telegram`
call with its outcome, and a `mark_seen` write. -/
inductive Ev where
  | visit (pnum : Nat) (url : String)
  | send (id : String) (ok : Bool)
  | record (id : String)
deriving DecidableEq

/-- Run state: the `seen` table, the event trace, and a counter feeding the
wall clock used for `first_seen_utc` timestamps. -/
structure St where
  ledger : List (String × String)
  trace : List Ev
  tick : Nat
deriving DecidableEq

/-- The environment of one run: configuration plus the external oracles
(renderer keyed by requested URL, Telegram transport keyed by message text,
wall clock keyed by call count). -/
structure Config where
  url : String
  maxPages : Nat
  nav : String → NavResult
  notifier : String → Bool
  clock : Nat → String

/-- The body of the inner loop of `check_once` for one unseen job (source lines
169-172): `ok = send_telegram(format_msg(...))`; on success `mark_seen` is
called (with the current wall clock) and the write is recorded, on failure
the state is unchanged except for the send event. -/
def stepSend (cfg : Config) (j : Job) (st : St) : St :=
  if cfg.notifier (format_msg j.title j.url) then
    { ledger := markSeen st.ledger j.id (cfg.clock st.tick)
    , trace := st.trace ++ [Ev.send j.id true, Ev.record j.id]
    , tick := st.tick + 1 }
  else { st with trace := st.trace ++ [Ev.send j.id false] }

/-- The inner loop `for job in jobs[::-1]` of `check_once`
(source lines 166-172), applied to the already-reversed list:
skip seen ids; otherwise call the notifier and record only on success. -/
def processRev (cfg : Config) : List Job → St → St
  | [], st => st
  | j :: rest, st =>
    if seenL st.ledger j.id then processRev cfg rest st
    else processRev cfg rest (stepSend cfg j st)

/-- The page loop of `check_once` (source lines 153-176), with `fuel` the
number of page numbers left in `range(1, MAX_PAGES + 1)`. A navigation
timeout is the exception raised by `page.goto`, which no handler inside
`check_once` catches, hence `Except.error`. -/
def crawlFrom (cfg : Config) : Nat → Nat → St → Except Unit Unit × St
  | 0, _, st => (Except.ok (), st)
  | fuel + 1, pnum, st =>
    let url := paginate_url cfg.url pnum
    let st0 : St := { st with trace := st.trace ++ [Ev.visit pnum url] }
    match cfg.nav url with
    | NavResult.timeout => (Except.error (), st0)
    | NavResult.page finalUrl content anchors =>
      if looks_like_login_or_challenge finalUrl content then (Except.ok (), st0)
      else
        let jobs := extract_jobs_from_page finalUrl anchors
        let st1 := processRev cfg jobs.reverse st0
        if jobs.length = 0 then (Except.ok (), st1)
        else crawlFrom cfg fuel (pnum + 1) st1

/-- `check_once` (source lines 142-180) started on a given ledger. -/
def check_once (cfg : Config) (ledger : List (String × String)) : Except Unit Unit × St :=
  crawlFrom cfg cfg.maxPages 1 { ledger := ledger, trace := [], tick := 0 }

/-- One iteration of the `RUN_FOREVER` loop (source lines 228-234): any
exception escaping `check_once` is caught and logged; either way the loop
continues with whatever the durable ledger now holds. -/
def loop_cycle (cfg : Config) (ledger : List (String × String)) : List (String × String) :=
  match check_once cfg ledger with
  | (Except.error _, st) => st.ledger
  | (Except.ok _, st) => st.ledger

/-- Page numbers navigated to, in order, read off a trace. -/
def visitedNums (tr : List Ev) : List Nat :=
  tr.filterMap (fun e => match e with | Ev.visit n _ => some n | _ => none)

/-- Ids of notifier invocations, in order, read off a trace. -/
def sentIds (tr : List Ev) : List String :=
  tr.filterMap (fun e => match e with | Ev.send i _ => some i | _ => none)

/-- Navigation of page `p` neither times out nor trips the login/challenge
heuristic. -/
def navClean (cfg : Config) (p : Nat) : Prop :=
  match cfg.nav (paginate_url cfg.url p) with
  | NavResult.timeout => False
  | NavResult.page f c _ => looks_like_login_or_challenge f c = false

/-- The postings extracted from page `p` (empty on timeout). -/
def pageJobs (cfg : Config) (p : Nat) : List Job :=
  match cfg.nav (paginate_url cfg.url p) with
  | NavResult.timeout => []
  | NavResult.page f _ a => extract_jobs_from_page f a

/-- Boolean form of `navClean`, for concrete evaluation. -/
def navCleanB (cfg : Config) (p : Nat) : Bool :=
  match cfg.nav (paginate_url cfg.url p) with
  | NavResult.timeout => false
  | NavResult.page f c _ => !looks_like_login_or_challenge f c

/-- Page `p` renders but trips the login/challenge heuristic. -/
def authBlockB (cfg : Config) (p : Nat) : Bool :=
  match cfg.nav (paginate_url cfg.url p) with
  | NavResult.timeout => false
  | NavResult.page f c _ => looks_like_login_or_challenge f c

/-- Navigation of page `p` times out. -/
def timeoutAtB (cfg : Config) (p : Nat) : Bool :=
  match cfg.nav (paginate_url cfg.url p) with
  | NavResult.timeout => true
  | NavResult.page _ _ _ => false

/-- The page numbers the loop of `check_once` visits, predicted from the
per-page yields alone (no timeout, no login block): visit `pnum`, stop on an
empty page, otherwise continue while fuel remains. -/
def visitSpec (cfg : Config) : Nat → Nat → List Nat
  | 0, _ => []
  | fuel + 1, pnum =>
    pnum :: (if (pageJobs cfg pnum).length = 0 then [] else visitSpec cfg fuel (pnum + 1))

/-- Does `([?&])page=\d+` match anywhere (the fire condition of `subPageF`
at some position)? -/
def hasPagePatB : List Char → Bool
  | [] => false
  | c :: rest =>
    ((c == '?' || c == '&') && pagePat.isPrefixOf rest && isDigitHead (rest.drop 5))
      || hasPagePatB rest

/-! Concrete fixtures used by witnesses and concrete conjuncts. -/

def anchorN (k : Nat) : Anchor :=
  { href := "/jobdating/jobs/" ++ Nat.repr k, innerText := "Job " ++ Nat.repr k,
    parentText := none }

def jobsBase : String := "https://app.example.com/forum/jobs"

def jobsUrl : String := "https://app.example.com/forum/jobs?page=1"

def idN (k : Nat) : String := "https://app.example.com/jobdating/jobs/" ++ Nat.repr k

/-- Two postings on page 1, none on page 2 (the end-to-end scenario of the
spec), every later page empty. -/
def cfgTwoPages : Config :=
  { url := jobsUrl, maxPages := 10
  , nav := fun u =>
      if u == jobsUrl then NavResult.page jobsBase "ok" [anchorN 1, anchorN 2]
      else NavResult.page jobsBase "ok" []
  , notifier := fun _ => true
  , clock := fun k => Nat.repr k }

/-- Page yields 3, 2, 0, 0, ... -/
def cfgYield320 : Config :=
  { url := jobsUrl, maxPages := 10
  , nav := fun u =>
      if u == jobsUrl then NavResult.page jobsBase "ok" [anchorN 1, anchorN 2, anchorN 3]
      else if u == "https://app.example.com/forum/jobs?page=2" then
        NavResult.page jobsBase "ok" [anchorN 4, anchorN 5]
      else NavResult.page jobsBase "ok" []
  , notifier := fun _ => true
  , clock := fun k => Nat.repr k }

/-- `MAX_PAGES = 2` and every page yields one posting. -/
def cfgCap2 : Config :=
  { url := jobsUrl, maxPages := 2
  , nav := fun u =>
      if u == jobsUrl then NavResult.page jobsBase "ok" [anchorN 1]
      else NavResult.page jobsBase "ok" [anchorN 6]
  , notifier := fun _ => true
  , clock := fun k => Nat.repr k }

/-- Page 1 is clean with one posting; page 2 lands on a login page. -/
def cfgLogin2 : Config :=
  { url := jobsUrl, maxPages := 10
  , nav := fun u =>
      if u == jobsUrl then NavResult.page jobsBase "ok" [anchorN 1]
      else NavResult.page "https://app.example.com/login" "Please sign in" []
  , notifier := fun _ => true
  , clock := fun k => Nat.repr k }

/-- Every navigation times out. -/
def cfgTimeout : Config :=
  { url := jobsUrl, maxPages := 10
  , nav := fun _ => NavResult.timeout
  , notifier := fun _ => true
  , clock := fun k => Nat.repr k }

/-- Page 1 is clean with one posting; page 2 times out. -/
def cfgTimeout2 : Config :=
  { url := jobsUrl, maxPages := 10
  , nav := fun u =>
      if u == jobsUrl then NavResult.page jobsBase "ok" [anchorN 1]
      else NavResult.timeout
  , notifier := fun _ => true
  , clock := fun k => Nat.repr k }

/-- The notifier fails on every message. -/
def cfgNotifyFail : Config :=
  { url := jobsUrl, maxPages := 10
  , nav := fun u =>
      if u == jobsUrl then NavResult.page jobsBase "ok" [anchorN 1]
      else NavResult.page jobsBase "ok" []
  , notifier := fun _ => false
  , clock := fun k => Nat.repr k }

example : paginate_url "https://a.com/x?page=1" 4 = "https://a.com/x?page=4" := by decide
example : paginate_url "https://a.com/x" 4 = "https://a.com/x?page=4" := by decide
example : paginate_url "https://a.com/x?q=1" 4 = "https://a.com/x?q=1&page=4" := by decide
example : paginate_url "http://ex.com/a?mypage=3" 2 = "http://ex.com/a?mypage=3" := by decide
example : looks_like_login_or_challenge "https://a.com/Login" "" = true := by decide
example : looks_like_login_or_challenge "https://a.com/jobs" "all fine" = false := by decide
example :
    extract_jobs_from_page "https://app.example.com/x"
      [⟨"/jobdating/jobs/42", "Dev", none⟩] =
      [{ id := "https://app.example.com/jobdating/jobs/42", title := "Dev",
         url := "https://app.example.com/jobdating/jobs/42" }] := by decide

/-! ### Ledger lemmas -/

theorem seenL_false_rowsFor (l : List (String × String)) (id : String)
    (h : seenL l id = false) : rowsFor l id = [] := by
  simp only [seenL, List.any_eq_false] at h
  simp only [rowsFor, List.filter_eq_nil_iff]
  exact fun p hp => by simpa using h p hp

theorem seenL_markSeen (l : List (String × String)) (a t id : String) :
    seenL (markSeen l a t) id = (seenL l id || a == id) := by
  by_cases h : seenL l a = true
  · rw [markSeen, if_pos h]
    by_cases hid : a = id
    · subst hid
      rw [h]
      simp
    · have : (a == id) = false := by simp [hid]
      rw [this]
      simp
  · rw [markSeen, if_neg h]
    simp [seenL, List.any_append]

theorem seenL_markSeen_self (l : List (String × String)) (a t : String) :
    seenL (markSeen l a t) a = true := by
  simp [seenL_markSeen]

theorem rowsFor_append (l₁ l₂ : List (String × String)) (id : String) :
    rowsFor (l₁ ++ l₂) id = rowsFor l₁ id ++ rowsFor l₂ id := by
  simp [rowsFor, List.filter_append]

theorem rowsFor_length_of_nodup (l : List (String × String)) (id : String)
    (hnd : (l.map Prod.fst).Nodup) (hs : seenL l id = true) :
    (rowsFor l id).length = 1 := by
  induction l with
  | nil => simp [seenL] at hs
  | cons p rest ih =>
    simp only [List.map_cons, List.nodup_cons] at hnd
    by_cases hp : p.1 = id
    · have hrest : seenL rest id = false := by
        by_contra hc
        simp only [Bool.not_eq_false, seenL, List.any_eq_true] at hc
        obtain ⟨q, hq, hq2⟩ := hc
        have hmem : q.1 ∈ List.map Prod.fst rest := List.mem_map_of_mem Prod.fst hq
        rw [beq_iff_eq.mp hq2, ← hp] at hmem
        exact hnd.1 hmem
      have hnil : rowsFor rest id = [] := seenL_false_rowsFor rest id hrest
      simp only [rowsFor] at hnil
      simp [rowsFor, List.filter_cons, hp, hnil]
    · have hs' : seenL rest id = true := by
        simp only [seenL, List.any_cons, Bool.or_eq_true] at hs
        rcases hs with h | h
        · exact absurd (beq_iff_eq.mp h) hp
        · exact h
      have := ih hnd.2 hs'
      simpa [rowsFor, List.filter_cons, hp] using this

/-- C4: Recording an id into the dedup ledger is idempotent: a duplicate
insert is a no-op (not an error), a second `record` for the same id leaves
the table unchanged, a fresh insert stores exactly the given timestamp, and
under the primary-key invariant the id ends with exactly one row whose
timestamp is the first one inserted. -/
theorem c4_record_idempotent :
    (∀ (l : List (String × String)) id t, seenL l id = true → markSeen l id t = l) ∧
    (∀ (l : List (String × String)) id t₁ t₂,
      markSeen (markSeen l id t₁) id t₂ = markSeen l id t₁) ∧
    (∀ (l : List (String × String)) id t, seenL l id = false →
      rowsFor (markSeen l id t) id = [(id, t)]) ∧
    (∀ (l : List (String × String)) id t₁ t₂, (l.map Prod.fst).Nodup →
      (rowsFor (markSeen (markSeen l id t₁) id t₂) id).length = 1 ∧
      rowsFor (markSeen (markSeen l id t₁) id t₂) id = rowsFor (markSeen l id t₁) id) := by
  have hnoop : ∀ (l : List (String × String)) id t, seenL l id = true → markSeen l id t = l := by
    intro l id t h
    simp [markSeen, h]
  have hidem : ∀ (l : List (String × String)) id t₁ t₂,
      markSeen (markSeen l id t₁) id t₂ = markSeen l id t₁ := by
    intro l id t₁ t₂
    exact hnoop _ id t₂ (seenL_markSeen_self l id t₁)
  refine ⟨hnoop, hidem, ?_, ?_⟩
  · intro l id t h
    have : markSeen l id t = l ++ [(id, t)] := by simp [markSeen, h]
    rw [this, rowsFor_append, seenL_false_rowsFor l id h]
    simp [rowsFor]
  · intro l id t₁ t₂ hnd
    rw [hidem]
    refine ⟨?_, rfl⟩
    by_cases h : seenL l id = true
    · rw [hnoop l id t₁ h]
      exact rowsFor_length_of_nodup l id hnd h
    · have h' : seenL l id = false := by simpa using h
      rw [(show markSeen l id t₁ = l ++ [(id, t₁)] by simp [markSeen, h']),
        rowsFor_append, seenL_false_rowsFor l id h']
      simp [rowsFor]

/-- Witness for C4 at a concrete ledger. -/
theorem c4_witness :
    (seenL [("a", "t0")] "x" = false ∧
      rowsFor (markSeen [("a", "t0")] "x" "t1") "x" = [("x", "t1")]) ∧
    (([("a", "t0")].map Prod.fst).Nodup ∧
      (rowsFor (markSeen (markSeen [("a", "t0")] "x" "t1") "x" "t2") "x").length = 1) :=
  ⟨⟨by decide, c4_record_idempotent.2.2.1 _ "x" "t1" (by decide)⟩,
   ⟨by decide, (c4_record_idempotent.2.2.2 _ "x" "t1" "t2" (by decide)).1⟩⟩

/-! ### Extraction lemmas -/

theorem anchorJob_id_eq_url (pageUrl : String) (a : Anchor) (j : Job)
    (h : anchorJob pageUrl a = some j) : j.id = j.url := by
  unfold anchorJob at h
  split at h
  · exact absurd h (by simp)
  · simp only [Option.some.injEq] at h
    rw [← h]

theorem anchorJob_url_resolved (pageUrl : String) (a : Anchor) (j : Job)
    (h : anchorJob pageUrl a = some j) :
    j.url = String.mk (resolveHref pageUrl.data (trimWs a.href.data)) := by
  unfold anchorJob at h
  split at h
  · exact absurd h (by simp)
  · simp only [Option.some.injEq] at h
    rw [← h]

theorem dictInsert_mem (l : List (String × Job)) (k : String) (v : Job)
    (p : String × Job) (hp : p ∈ dictInsert l k v) : p ∈ l ∨ p = (k, v) := by
  unfold dictInsert at hp
  split at hp
  · obtain ⟨q, hq, hq2⟩ := List.mem_map.mp hp
    by_cases hqk : (q.1 == k) = true
    · rw [if_pos hqk] at hq2
      exact Or.inr hq2.symm
    · rw [if_neg hqk] at hq2
      exact Or.inl (hq2 ▸ hq)
  · rcases List.mem_append.mp hp with h | h
    · exact Or.inl h
    · simp only [List.mem_singleton] at h
      exact Or.inr h

theorem dictInsert_keys (l : List (String × Job)) (k : String) (v : Job) :
    (dictInsert l k v).map Prod.fst =
      if l.any (fun p => p.1 == k) then l.map Prod.fst else l.map Prod.fst ++ [k] := by
  unfold dictInsert
  split
  · rw [List.map_map]
    apply List.map_congr_left
    intro q _
    by_cases hqk : q.1 = k
    · simp [hqk]
    · simp [hqk]
  · simp

theorem dictInsert_nodup (l : List (String × Job)) (k : String) (v : Job)
    (h : (l.map Prod.fst).Nodup) : ((dictInsert l k v).map Prod.fst).Nodup := by
  rw [dictInsert_keys]
  split
  · exact h
  · have hna : ¬(l.any (fun p => p.1 == k) = true) := by assumption
    have hk : k ∉ l.map Prod.fst := by
      intro hmem
      obtain ⟨q, hq, hq2⟩ := List.mem_map.mp hmem
      exact hna (List.any_eq_true.mpr ⟨q, hq, beq_iff_eq.mpr hq2⟩)
    simp [List.nodup_append, h, List.disjoint_singleton, hk]

theorem foldl_dict_mem (jobs : List Job) :
    ∀ acc p, p ∈ jobs.foldl (fun u j => dictInsert u j.id j) acc → p ∈ acc ∨ p.2 ∈ jobs := by
  induction jobs with
  | nil =>
    intro acc p hp
    exact Or.inl hp
  | cons j rest ih =>
    intro acc p hp
    rw [List.foldl_cons] at hp
    rcases ih _ p hp with h | h
    · rcases dictInsert_mem _ _ _ _ h with h2 | h2
      · exact Or.inl h2
      · right
        rw [h2]
        exact List.mem_cons_self _ _
    · exact Or.inr (List.mem_cons_of_mem _ h)

theorem foldl_dict_fst (jobs : List Job) :
    ∀ acc, (∀ p ∈ acc, p.1 = p.2.id) →
      ∀ p ∈ jobs.foldl (fun u j => dictInsert u j.id j) acc, p.1 = p.2.id := by
  induction jobs with
  | nil => intro acc hacc p hp; exact hacc p hp
  | cons j rest ih =>
    intro acc hacc p hp
    rw [List.foldl_cons] at hp
    refine ih _ ?_ p hp
    intro q hq
    rcases dictInsert_mem _ _ _ _ hq with h | h
    · exact hacc q h
    · rw [h]

theorem foldl_dict_nodup (jobs : List Job) :
    ∀ acc, (acc.map Prod.fst).Nodup →
      ((jobs.foldl (fun u j => dictInsert u j.id j) acc).map Prod.fst).Nodup := by
  induction jobs with
  | nil => intro acc hacc; exact hacc
  | cons j rest ih =>
    intro acc hacc
    rw [List.foldl_cons]
    exact ih _ (dictInsert_nodup _ _ _ hacc)

/-- C10: every posting emitted by the extractor has `id = url`, and the ids
of one extraction result are pairwise distinct. -/
theorem c10_extract_invariants (pageUrl : String) (anchors : List Anchor) :
    (∀ j ∈ extract_jobs_from_page pageUrl anchors, j.id = j.url) ∧
    ((extract_jobs_from_page pageUrl anchors).map Job.id).Nodup := by
  constructor
  · intro j hj
    unfold extract_jobs_from_page at hj
    obtain ⟨p, hp, hpj⟩ := List.mem_map.mp hj
    rcases foldl_dict_mem _ _ p hp with h | h
    · simp at h
    · obtain ⟨a, _, haj⟩ := List.mem_filterMap.mp h
      rw [← hpj]
      exact anchorJob_id_eq_url _ _ _ haj
  · unfold extract_jobs_from_page
    have hfst := foldl_dict_fst (anchors.filterMap (anchorJob pageUrl)) []
      (by intro p hp; simp at hp)
    have hnd := foldl_dict_nodup (anchors.filterMap (anchorJob pageUrl)) [] (by simp)
    have hmap :
        (((anchors.filterMap (anchorJob pageUrl)).foldl
            (fun u j => dictInsert u j.id j) []).map Prod.snd).map Job.id =
        ((anchors.filterMap (anchorJob pageUrl)).foldl
            (fun u j => dictInsert u j.id j) []).map Prod.fst := by
      rw [List.map_map]
      exact List.map_congr_left fun p hp => (hfst p hp).symm
    rw [hmap]
    exact hnd

/-- Witness for C10 on a concrete page. -/
theorem c10_witness :
    ({ id := "https://app.example.com/jobdating/jobs/1", title := "Job 1",
       url := "https://app.example.com/jobdating/jobs/1" } : Job) ∈
      extract_jobs_from_page jobsBase [anchorN 1] ∧
    ({ id := "https://app.example.com/jobdating/jobs/1", title := "Job 1",
       url := "https://app.example.com/jobdating/jobs/1" } : Job).id =
    ({ id := "https://app.example.com/jobdating/jobs/1", title := "Job 1",
       url := "https://app.example.com/jobdating/jobs/1" } : Job).url :=
  ⟨by decide, (c10_extract_invariants jobsBase [anchorN 1]).1 _ (by decide)⟩

/-! ### URL resolution lemmas -/

theorem takeWhile_append_stop (p : Char → Bool) (xs : List Char) (y : Char) (ys : List Char)
    (hall : ∀ c ∈ xs, p c = true) (hy : p y = false) :
    (xs ++ y :: ys).takeWhile p = xs := by
  induction xs with
  | nil => simp [List.takeWhile_cons, hy]
  | cons x xs ih =>
    have hx := hall x (List.mem_cons_self _ _)
    simp only [List.cons_append, List.takeWhile_cons, hx]
    simp [ih fun c hc => hall c (List.mem_cons_of_mem _ hc)]

theorem dropWhile_append_stop (p : Char → Bool) (xs : List Char) (y : Char) (ys : List Char)
    (hall : ∀ c ∈ xs, p c = true) (hy : p y = false) :
    (xs ++ y :: ys).dropWhile p = y :: ys := by
  induction xs with
  | nil => simp [List.dropWhile_cons, hy]
  | cons x xs ih =>
    have hx := hall x (List.mem_cons_self _ _)
    simp only [List.cons_append, List.dropWhile_cons, hx]
    simp [ih fun c hc => hall c (List.mem_cons_of_mem _ hc)]

theorem pySplitCh_step (sep : Char) (m : Nat) (xs : List Char) (ys : List Char)
    (hall : ∀ c ∈ xs, (c != sep) = true) :
    pySplitCh sep (m + 1) (xs ++ sep :: ys) = xs :: pySplitCh sep m ys := by
  have hany : ((xs ++ sep :: ys).any (fun c => c == sep)) = true := by simp
  rw [pySplitCh, if_pos hany, takeWhile_append_stop _ _ _ _ hall (by simp),
    dropWhile_append_stop _ _ _ _ hall (by simp)]
  rfl

theorem resolveHref_abs (s h r href : List Char)
    (hs : '/' ∉ s) (hh : '/' ∉ h) (hhref : startsSlash href = true) :
    resolveHref (s ++ ':' :: '/' :: '/' :: (h ++ '/' :: r)) href
      = s ++ ':' :: '/' :: '/' :: (h ++ href) := by
  have hs' : ∀ c ∈ s ++ [':'], (c != '/') = true := by
    intro c hc
    rcases List.mem_append.mp hc with h1 | h1
    · have : c ≠ '/' := fun he => hs (he ▸ h1)
      simpa using this
    · simp only [List.mem_singleton] at h1
      subst h1
      decide
  have hh' : ∀ c ∈ h, (c != '/') = true := by
    intro c hc
    have : c ≠ '/' := fun he => hh (he ▸ hc)
    simpa using this
  have hshape : s ++ ':' :: '/' :: '/' :: (h ++ '/' :: r)
      = (s ++ [':']) ++ '/' :: ('/' :: (h ++ '/' :: r)) := by simp
  have e1 : pySplitCh '/' 3 ((s ++ [':']) ++ '/' :: ('/' :: (h ++ '/' :: r)))
      = (s ++ [':']) :: pySplitCh '/' 2 ('/' :: (h ++ '/' :: r)) :=
    pySplitCh_step '/' 2 (s ++ [':']) ('/' :: (h ++ '/' :: r)) hs'
  have e2 : pySplitCh '/' 2 ('/' :: (h ++ '/' :: r))
      = [] :: pySplitCh '/' 1 (h ++ '/' :: r) :=
    pySplitCh_step '/' 1 [] (h ++ '/' :: r) (by intro c hc; simp at hc)
  have e3 : pySplitCh '/' 1 (h ++ '/' :: r) = h :: pySplitCh '/' 0 r :=
    pySplitCh_step '/' 0 h r hh'
  have e4 : pySplitCh '/' 0 r = [r] := rfl
  rw [resolveHref, if_pos hhref, hshape, e1, e2, e3, e4]
  simp

/-- C8: relative job links are made absolute from the scheme and host of
the final URL of the page actually loaded: (i) on any absolute
`scheme://host/path` page URL, a root-relative href resolves to
`scheme://host` ++ href; (ii) every extracted posting originates from some
anchor of the page; (iii) the `url` field of such a posting is exactly the
resolution of the (stripped) href of that anchor against the loaded URL;
(iv) the concrete example from the spec. -/
theorem c8_resolve_links :
    (∀ (s h r href : List Char), '/' ∉ s → '/' ∉ h → startsSlash href = true →
      resolveHref (s ++ ':' :: '/' :: '/' :: (h ++ '/' :: r)) href
        = s ++ ':' :: '/' :: '/' :: (h ++ href)) ∧
    (∀ (pageUrl : String) (anchors : List Anchor) (j : Job),
      j ∈ extract_jobs_from_page pageUrl anchors →
      ∃ a ∈ anchors, anchorJob pageUrl a = some j) ∧
    (∀ (pageUrl : String) (a : Anchor) (j : Job), anchorJob pageUrl a = some j →
      j.url = String.mk (resolveHref pageUrl.data (trimWs a.href.data))) ∧
    String.mk (resolveHref "https://app.example.com/x".data "/jobdating/jobs/42".data)
      = "https://app.example.com/jobdating/jobs/42" := by
  refine ⟨resolveHref_abs, ?_, anchorJob_url_resolved, by decide⟩
  intro pageUrl anchors j hj
  unfold extract_jobs_from_page at hj
  obtain ⟨p, hp, hpj⟩ := List.mem_map.mp hj
  rcases foldl_dict_mem _ _ p hp with h | h
  · simp at h
  · obtain ⟨a, ha, haj⟩ := List.mem_filterMap.mp h
    exact ⟨a, ha, hpj ▸ haj⟩

/-- Witness for C8: the example link from the spec on the example page from the spec. -/
theorem c8_witness :
    ('/' : Char) ∉ "https".data ∧ ('/' : Char) ∉ "app.example.com".data ∧
    startsSlash "/jobdating/jobs/42".data = true ∧
    resolveHref ("https".data ++ ':' :: '/' :: '/' :: ("app.example.com".data ++ '/' :: "x".data))
        "/jobdating/jobs/42".data
      = "https".data ++ ':' :: '/' :: '/' :: ("app.example.com".data ++ "/jobdating/jobs/42".data) :=
  ⟨by decide, by decide, by decide,
    c8_resolve_links.1 "https".data "app.example.com".data "x".data "/jobdating/jobs/42".data
      (by decide) (by decide) (by decide)⟩

/-! ### Run lemmas: monotonicity, dedup, delivery/record coupling -/

theorem stepSend_trace (cfg : Config) (j : Job) (st : St) :
    (stepSend cfg j st).trace = st.trace ++
      (if cfg.notifier (format_msg j.title j.url) then
        [Ev.send j.id true, Ev.record j.id] else [Ev.send j.id false]) := by
  unfold stepSend
  split <;> rfl

theorem stepSend_ledger (cfg : Config) (j : Job) (st : St) :
    (stepSend cfg j st).ledger =
      (if cfg.notifier (format_msg j.title j.url) then
        markSeen st.ledger j.id (cfg.clock st.tick) else st.ledger) := by
  unfold stepSend
  split <;> rfl

theorem stepSend_seen_mono (cfg : Config) (j : Job) (st : St) (id : String)
    (h : seenL st.ledger id = true) : seenL (stepSend cfg j st).ledger id = true := by
  rw [stepSend_ledger]
  split
  · rw [seenL_markSeen, h]
    rfl
  · exact h

theorem stepSend_seen_other (cfg : Config) (j : Job) (st : St) (id : String)
    (hne : j.id ≠ id) : seenL (stepSend cfg j st).ledger id = seenL st.ledger id := by
  rw [stepSend_ledger]
  split
  · rw [seenL_markSeen]
    simp [hne]
  · rfl

theorem proc_seen_mono (cfg : Config) (jobs : List Job) :
    ∀ st id, seenL st.ledger id = true →
      seenL (processRev cfg jobs st).ledger id = true := by
  induction jobs with
  | nil => intro st id h; exact h
  | cons j rest ih =>
    intro st id h
    rw [processRev]
    split
    · exact ih st id h
    · exact ih _ id (stepSend_seen_mono cfg j st id h)

theorem proc_trace_mono (cfg : Config) (jobs : List Job) :
    ∀ st e, e ∈ st.trace → e ∈ (processRev cfg jobs st).trace := by
  induction jobs with
  | nil => intro st e h; exact h
  | cons j rest ih =>
    intro st e h
    rw [processRev]
    split
    · exact ih st e h
    · refine ih _ e ?_
      rw [stepSend_trace]
      exact List.mem_append_left _ h

theorem proc_send_seen (cfg : Config) (jobs : List Job) :
    ∀ st id ok, seenL st.ledger id = true →
      Ev.send id ok ∈ (processRev cfg jobs st).trace → Ev.send id ok ∈ st.trace := by
  induction jobs with
  | nil => intro st id ok _ h; exact h
  | cons j rest ih =>
    intro st id ok hseen h
    rw [processRev] at h
    split at h
    · exact ih st id ok hseen h
    · rename_i hns
      have hne : j.id ≠ id := by
        intro he
        rw [he] at hns
        exact hns hseen
      have h2 := ih _ id ok (stepSend_seen_mono cfg j st id hseen) h
      rw [stepSend_trace] at h2
      rcases List.mem_append.mp h2 with h3 | h3
      · exact h3
      · exfalso
        split at h3 <;> simp_all

theorem crawl_seen_mono (cfg : Config) :
    ∀ fuel pnum st id, seenL st.ledger id = true →
      seenL ((crawlFrom cfg fuel pnum st).2).ledger id = true := by
  intro fuel
  induction fuel with
  | zero => intro pnum st id h; exact h
  | succ fuel ih =>
    intro pnum st id h
    rw [crawlFrom]
    rcases hnav : cfg.nav (paginate_url cfg.url pnum) with _ | ⟨f, c, a⟩
    · simpa [hnav] using h
    · simp only [hnav]
      split
      · exact h
      · split
        · exact proc_seen_mono cfg _ _ id h
        · exact ih _ _ id (proc_seen_mono cfg _ _ id h)

theorem crawl_trace_mono (cfg : Config) :
    ∀ fuel pnum st e, e ∈ st.trace → e ∈ ((crawlFrom cfg fuel pnum st).2).trace := by
  intro fuel
  induction fuel with
  | zero => intro pnum st e h; exact h
  | succ fuel ih =>
    intro pnum st e h
    rw [crawlFrom]
    have h0 : e ∈ st.trace ++ [Ev.visit pnum (paginate_url cfg.url pnum)] :=
      List.mem_append_left _ h
    rcases hnav : cfg.nav (paginate_url cfg.url pnum) with _ | ⟨f, c, a⟩
    · simpa [hnav] using h0
    · simp only [hnav]
      split
      · exact h0
      · split
        · exact proc_trace_mono cfg _ _ e h0
        · exact ih _ _ e (proc_trace_mono cfg _ _ e h0)

theorem crawl_send_seen (cfg : Config) :
    ∀ fuel pnum st id ok, seenL st.ledger id = true →
      Ev.send id ok ∈ ((crawlFrom cfg fuel pnum st).2).trace →
      Ev.send id ok ∈ st.trace := by
  intro fuel
  induction fuel with
  | zero => intro pnum st id ok _ h; exact h
  | succ fuel ih =>
    intro pnum st id ok hseen h
    rw [crawlFrom] at h
    have strip : Ev.send id ok ∈ st.trace ++ [Ev.visit pnum (paginate_url cfg.url pnum)] →
        Ev.send id ok ∈ st.trace := by
      intro hm
      rcases List.mem_append.mp hm with h3 | h3
      · exact h3
      · simp at h3
    rcases hnav : cfg.nav (paginate_url cfg.url pnum) with _ | ⟨f, c, a⟩
    · rw [hnav] at h
      exact strip h
    · rw [hnav] at h
      dsimp only at h
      set st0 : St :=
        { ledger := st.ledger,
          trace := st.trace ++ [Ev.visit pnum (paginate_url cfg.url pnum)],
          tick := st.tick } with hst0
      split at h
      · exact strip h
      · have hseen0 : seenL st0.ledger id = true := hseen
        split at h
        · exact strip (proc_send_seen cfg _ st0 id ok hseen0 h)
        · exact strip (proc_send_seen cfg _ st0 id ok hseen0
            (ih _ _ id ok (proc_seen_mono cfg _ st0 id hseen0) h))

/-- C2: once an id is in the dedup ledger when page processing starts, the
notifier is never invoked for it during the rest of the run (any send event
for it in the final trace was already there); in particular a run started
on a ledger containing the id produces no send event for it at all. -/
theorem c2_no_notify_for_seen :
    (∀ (cfg : Config) (fuel pnum : Nat) (st : St) (id : String) (ok : Bool),
      seenL st.ledger id = true →
      Ev.send id ok ∈ ((crawlFrom cfg fuel pnum st).2).trace →
      Ev.send id ok ∈ st.trace) ∧
    (∀ (cfg : Config) (l : List (String × String)) (id : String) (ok : Bool),
      seenL l id = true → Ev.send id ok ∉ ((check_once cfg l).2).trace) :=
  ⟨fun cfg fuel pnum st id ok h hm => crawl_send_seen cfg fuel pnum st id ok h hm,
   fun cfg l id ok h hm => by
     have := crawl_send_seen cfg cfg.maxPages 1 { ledger := l, trace := [], tick := 0 }
       id ok h hm
     simp at this⟩

/-- Witness for C2: with posting 1 pre-seeded in the ledger, the two-page
run never sends it. -/
theorem c2_witness :
    seenL [("https://app.example.com/jobdating/jobs/1", "t")]
        "https://app.example.com/jobdating/jobs/1" = true ∧
    Ev.send "https://app.example.com/jobdating/jobs/1" true ∉
      ((check_once cfgTwoPages [("https://app.example.com/jobdating/jobs/1", "t")]).2).trace :=
  ⟨by decide,
   c2_no_notify_for_seen.2 cfgTwoPages [("https://app.example.com/jobdating/jobs/1", "t")]
     "https://app.example.com/jobdating/jobs/1" true (by decide)⟩

theorem proc_rec_iff (cfg : Config) (jobs : List Job) :
    ∀ st id, (Ev.record id ∈ st.trace ↔ Ev.send id true ∈ st.trace) →
      (Ev.record id ∈ (processRev cfg jobs st).trace ↔
        Ev.send id true ∈ (processRev cfg jobs st).trace) := by
  induction jobs with
  | nil => intro st id h; exact h
  | cons j rest ih =>
    intro st id h
    rw [processRev]
    split
    · exact ih st id h
    · refine ih _ id ?_
      rw [stepSend_trace]
      split
      · simp only [List.mem_append, List.mem_cons, List.not_mem_nil, or_false]
        simp only [Ev.record.injEq, Ev.send.injEq]
        constructor
        · rintro (hm | hm | hm)
          · exact Or.inl (h.mp hm)
          · exact absurd hm (by simp)
          · exact Or.inr (Or.inl ⟨hm, trivial⟩)
        · rintro (hm | hm | hm)
          · exact Or.inl (h.mpr hm)
          · exact Or.inr (Or.inr hm.1)
          · exact absurd hm (by simp)
      · simp only [List.mem_append, List.mem_cons, List.not_mem_nil, or_false]
        simp only [Ev.send.injEq]
        constructor
        · rintro (hm | hm)
          · exact Or.inl (h.mp hm)
          · exact absurd hm (by simp)
        · rintro (hm | hm)
          · exact Or.inl (h.mpr hm)
          · exact absurd hm.2 (by simp)

theorem crawl_rec_iff (cfg : Config) :
    ∀ fuel pnum st id, (Ev.record id ∈ st.trace ↔ Ev.send id true ∈ st.trace) →
      (Ev.record id ∈ ((crawlFrom cfg fuel pnum st).2).trace ↔
        Ev.send id true ∈ ((crawlFrom cfg fuel pnum st).2).trace) := by
  intro fuel
  induction fuel with
  | zero => intro pnum st id h; exact h
  | succ fuel ih =>
    intro pnum st id h
    rw [crawlFrom]
    have h0 : Ev.record id ∈ st.trace ++ [Ev.visit pnum (paginate_url cfg.url pnum)] ↔
        Ev.send id true ∈ st.trace ++ [Ev.visit pnum (paginate_url cfg.url pnum)] := by
      simp only [List.mem_append, List.mem_singleton]
      constructor
      · rintro (hm | hm)
        · exact Or.inl (h.mp hm)
        · exact absurd hm (by simp)
      · rintro (hm | hm)
        · exact Or.inl (h.mpr hm)
        · exact absurd hm (by simp)
    rcases hnav : cfg.nav (paginate_url cfg.url pnum) with _ | ⟨f, c, a⟩
    · simpa [hnav] using h0
    · simp only [hnav]
      split
      · exact h0
      · split
        · exact proc_rec_iff cfg _ _ id h0
        · exact ih _ _ id (proc_rec_iff cfg _ _ id h0)

theorem proc_no_success_seen_eq (cfg : Config) (jobs : List Job) :
    ∀ st id, Ev.send id true ∉ (processRev cfg jobs st).trace →
      seenL (processRev cfg jobs st).ledger id = seenL st.ledger id := by
  induction jobs with
  | nil => intro st id _; rfl
  | cons j rest ih =>
    intro st id hns
    rw [processRev] at hns ⊢
    by_cases hs : seenL st.ledger j.id = true
    · rw [if_pos hs] at hns ⊢
      exact ih st id hns
    · rw [if_neg hs] at hns ⊢
      by_cases hok : cfg.notifier (format_msg j.title j.url) = true
      · by_cases hne : j.id = id
        · exfalso
          apply hns
          apply proc_trace_mono
          rw [stepSend_trace, hok]
          simp [hne]
        · rw [ih _ id hns, stepSend_seen_other cfg j st id hne]
      · simp only [Bool.not_eq_true] at hok
        have hl : (stepSend cfg j st).ledger = st.ledger := by
          rw [stepSend_ledger, hok]
          simp
        rw [ih _ id hns, hl]

theorem crawl_no_success_seen_eq (cfg : Config) :
    ∀ fuel pnum st id, Ev.send id true ∉ ((crawlFrom cfg fuel pnum st).2).trace →
      seenL ((crawlFrom cfg fuel pnum st).2).ledger id = seenL st.ledger id := by
  intro fuel
  induction fuel with
  | zero => intro pnum st id _; rfl
  | succ fuel ih =>
    intro pnum st id hns
    rw [crawlFrom] at hns ⊢
    rcases hnav : cfg.nav (paginate_url cfg.url pnum) with _ | ⟨f, c, a⟩
    · rfl
    · rw [hnav] at hns
      dsimp only at hns ⊢
      set st0 : St :=
        { ledger := st.ledger,
          trace := st.trace ++ [Ev.visit pnum (paginate_url cfg.url pnum)],
          tick := st.tick } with hst0
      by_cases hlog : looks_like_login_or_challenge f c = true
      · rw [if_pos hlog] at hns ⊢
      · rw [if_neg hlog] at hns ⊢
        by_cases hz : (extract_jobs_from_page f a).length = 0
        · rw [if_pos hz] at hns ⊢
          exact proc_no_success_seen_eq cfg _ st0 id hns
        · rw [if_neg hz] at hns ⊢
          rw [ih _ _ id hns]
          exact proc_no_success_seen_eq cfg _ st0 id
            (fun hm => hns (crawl_trace_mono cfg _ _ _ _ hm))

theorem proc_retry (cfg : Config) (jobs : List Job) :
    ∀ st id, seenL st.ledger id = false → id ∈ jobs.map Job.id →
      ∃ ok, Ev.send id ok ∈ (processRev cfg jobs st).trace := by
  induction jobs with
  | nil => intro st id _ h; simp at h
  | cons j rest ih =>
    intro st id hunseen hmem
    rw [processRev]
    rcases List.mem_cons.mp hmem with he | hrest
    · rw [List.map_cons] at hmem
      split
      · rename_i hs
        rw [he] at hunseen
        rw [hunseen] at hs
        simp at hs
      · refine ⟨cfg.notifier (format_msg j.title j.url), ?_⟩
        apply proc_trace_mono
        rw [stepSend_trace]
        by_cases hok : cfg.notifier (format_msg j.title j.url) = true
        · rw [hok, he]
          simp
        · simp only [Bool.not_eq_true] at hok
          rw [hok, he]
          simp
    · rw [List.map_cons] at hmem
      split
      · exact ih st id hunseen hrest
      · by_cases hne : j.id = id
        · refine ⟨cfg.notifier (format_msg j.title j.url), ?_⟩
          apply proc_trace_mono
          rw [stepSend_trace]
          by_cases hok : cfg.notifier (format_msg j.title j.url) = true
          · rw [hok, hne]
            simp
          · simp only [Bool.not_eq_true] at hok
            rw [hok, hne]
            simp
        · refine ih _ id ?_ hrest
          rw [stepSend_seen_other cfg j st id hne]
          exact hunseen

/-- C1: (i) over a whole run, a ledger write for an id happens exactly when
a successful notifier call for it happens; (ii) a run with no successful
send for an id leaves the seen-status of that id unchanged, so a failed delivery
does not mark it seen; (iii) whenever an unseen id is among the postings a
page feeds into per-page processing, the notifier is invoked for it — so an
undelivered posting is re-attempted on every later run that lists it. -/
theorem c1_seen_record_iff_delivery :
    (∀ (cfg : Config) (l : List (String × String)) (id : String),
      Ev.record id ∈ ((check_once cfg l).2).trace ↔
        Ev.send id true ∈ ((check_once cfg l).2).trace) ∧
    (∀ (cfg : Config) (fuel pnum : Nat) (st : St) (id : String),
      Ev.send id true ∉ ((crawlFrom cfg fuel pnum st).2).trace →
      seenL ((crawlFrom cfg fuel pnum st).2).ledger id = seenL st.ledger id) ∧
    (∀ (cfg : Config) (jobs : List Job) (st : St) (id : String),
      seenL st.ledger id = false → id ∈ jobs.map Job.id →
      ∃ ok, Ev.send id ok ∈ (processRev cfg jobs st).trace) :=
  ⟨fun cfg l id => crawl_rec_iff cfg cfg.maxPages 1 _ id (by simp),
   fun cfg fuel pnum st id => crawl_no_success_seen_eq cfg fuel pnum st id,
   fun cfg jobs st id => proc_retry cfg jobs st id⟩

/-- Witness for C1: a run whose notifier always fails leaves the fresh id
unseen, and per-page processing of an unseen posting does invoke the
notifier. -/
theorem c1_witness :
    (Ev.send "https://app.example.com/jobdating/jobs/1" true ∉
        ((crawlFrom cfgNotifyFail 10 1 { ledger := [], trace := [], tick := 0 }).2).trace ∧
      seenL ((crawlFrom cfgNotifyFail 10 1 { ledger := [], trace := [], tick := 0 }).2).ledger
          "https://app.example.com/jobdating/jobs/1" =
        seenL ([] : List (String × String)) "https://app.example.com/jobdating/jobs/1") ∧
    (seenL ([] : List (String × String)) "a" = false ∧ "a" ∈ [Job.mk "a" "t" "a"].map Job.id ∧
      ∃ ok, Ev.send "a" ok ∈
        (processRev cfgNotifyFail [Job.mk "a" "t" "a"] { ledger := [], trace := [], tick := 0 }).trace) :=
  ⟨⟨by decide,
    c1_seen_record_iff_delivery.2.1 cfgNotifyFail 10 1 { ledger := [], trace := [], tick := 0 }
      "https://app.example.com/jobdating/jobs/1" (by decide)⟩,
   ⟨by decide, by decide,
    c1_seen_record_iff_delivery.2.2 cfgNotifyFail [Job.mk "a" "t" "a"]
      { ledger := [], trace := [], tick := 0 } "a" (by decide) (by decide)⟩⟩

theorem sentIds_append (tr tr' : List Ev) :
    sentIds (tr ++ tr') = sentIds tr ++ sentIds tr' := by
  simp [sentIds, List.filterMap_append]

theorem proc_sent (cfg : Config) :
    ∀ (L : List Job) (st : St), ((L.map Job.id).Nodup) →
      sentIds (processRev cfg L st).trace =
        sentIds st.trace ++ (L.filter (fun j => !seenL st.ledger j.id)).map Job.id := by
  intro L
  induction L with
  | nil => intro st _; simp [processRev]
  | cons j rest ih =>
    intro st hnd
    simp only [List.map_cons, List.nodup_cons] at hnd
    rw [processRev]
    by_cases hs : seenL st.ledger j.id = true
    · rw [if_pos hs, ih st hnd.2, List.filter_cons]
      simp [hs]
    · rw [if_neg hs]
      have hs' : seenL st.ledger j.id = false := by simpa using hs
      have hst' : sentIds (stepSend cfg j st).trace = sentIds st.trace ++ [j.id] := by
        rw [stepSend_trace, sentIds_append]
        split <;> rfl
      have hfilter : rest.filter (fun r => !seenL (stepSend cfg j st).ledger r.id)
          = rest.filter (fun r => !seenL st.ledger r.id) := by
        apply List.filter_congr
        intro r hr
        have hne : j.id ≠ r.id := by
          intro he
          exact hnd.1 (he ▸ List.mem_map_of_mem Job.id hr)
        rw [stepSend_seen_other cfg j st r.id hne]
      rw [ih _ hnd.2, hst', hfilter, List.filter_cons]
      simp [hs']

/-- C5: per page, the unseen postings are notified in the reverse of the
posting order of the page (the loop runs over `jobs[::-1]`), and on the end-to-end scenario from the spec
 (page 1 yields postings 1 then 2, page 2 empty, empty
ledger) the run sends posting 2 then posting 1, records both, and stops
after page 2. -/
theorem c5_reverse_order_notification :
    (∀ (cfg : Config) (jobs : List Job) (st : St), ((jobs.map Job.id).Nodup) →
      sentIds (processRev cfg jobs.reverse st).trace =
        sentIds st.trace ++ ((jobs.filter (fun j => !seenL st.ledger j.id)).map Job.id).reverse) ∧
    ((check_once cfgTwoPages []).2).trace =
      [Ev.visit 1 "https://app.example.com/forum/jobs?page=1",
       Ev.send "https://app.example.com/jobdating/jobs/2" true,
       Ev.record "https://app.example.com/jobdating/jobs/2",
       Ev.send "https://app.example.com/jobdating/jobs/1" true,
       Ev.record "https://app.example.com/jobdating/jobs/1",
       Ev.visit 2 "https://app.example.com/forum/jobs?page=2"] ∧
    ((check_once cfgTwoPages []).2).ledger =
      [("https://app.example.com/jobdating/jobs/2", "0"),
       ("https://app.example.com/jobdating/jobs/1", "1")] := by
  refine ⟨?_, by decide, by decide⟩
  intro cfg jobs st hnd
  have hnd' : ((jobs.reverse.map Job.id).Nodup) := by
    rw [List.map_reverse]
    exact (List.nodup_reverse).mpr hnd
  rw [proc_sent cfg jobs.reverse st hnd', List.filter_reverse, List.map_reverse]

/-- Witness for C5: the general ordering statement at the concrete
two-posting page. -/
theorem c5_witness :
    (([Job.mk "https://app.example.com/jobdating/jobs/1" "Job 1"
          "https://app.example.com/jobdating/jobs/1",
       Job.mk "https://app.example.com/jobdating/jobs/2" "Job 2"
          "https://app.example.com/jobdating/jobs/2"].map Job.id).Nodup) ∧
    sentIds (processRev cfgTwoPages
        [Job.mk "https://app.example.com/jobdating/jobs/1" "Job 1"
            "https://app.example.com/jobdating/jobs/1",
         Job.mk "https://app.example.com/jobdating/jobs/2" "Job 2"
            "https://app.example.com/jobdating/jobs/2"].reverse
        { ledger := [], trace := [], tick := 0 }).trace =
      sentIds ({ ledger := [], trace := [], tick := 0 } : St).trace ++
        (([Job.mk "https://app.example.com/jobdating/jobs/1" "Job 1"
              "https://app.example.com/jobdating/jobs/1",
           Job.mk "https://app.example.com/jobdating/jobs/2" "Job 2"
              "https://app.example.com/jobdating/jobs/2"].filter
            (fun j => !seenL ([] : List (String × String)) j.id)).map Job.id).reverse :=
  ⟨by decide,
   c5_reverse_order_notification.1 cfgTwoPages
     [Job.mk "https://app.example.com/jobdating/jobs/1" "Job 1"
         "https://app.example.com/jobdating/jobs/1",
      Job.mk "https://app.example.com/jobdating/jobs/2" "Job 2"
         "https://app.example.com/jobdating/jobs/2"]
     { ledger := [], trace := [], tick := 0 } (by decide)⟩

/-! ### Pagination lemmas -/

theorem visitedNums_append (tr tr' : List Ev) :
    visitedNums (tr ++ tr') = visitedNums tr ++ visitedNums tr' := by
  simp [visitedNums, List.filterMap_append]

theorem proc_visited (cfg : Config) :
    ∀ (L : List Job) (st : St),
      visitedNums (processRev cfg L st).trace = visitedNums st.trace := by
  intro L
  induction L with
  | nil => intro st; rfl
  | cons j rest ih =>
    intro st
    rw [processRev]
    split
    · exact ih st
    · rw [ih _, stepSend_trace, visitedNums_append]
      split <;> simp [visitedNums]

theorem crawl_visit_spec (cfg : Config) :
    ∀ fuel pnum st, (∀ q ∈ List.range' pnum fuel, navCleanB cfg q = true) →
      visitedNums ((crawlFrom cfg fuel pnum st).2).trace =
        visitedNums st.trace ++ visitSpec cfg fuel pnum := by
  intro fuel
  induction fuel with
  | zero => intro pnum st _; simp [crawlFrom, visitSpec]
  | succ fuel ih =>
    intro pnum st hcl
    have hp : navCleanB cfg pnum = true := hcl pnum (by
      rw [List.mem_range'_1]
      omega)
    rw [crawlFrom]
    rcases hnav : cfg.nav (paginate_url cfg.url pnum) with _ | ⟨f, c, a⟩
    · rw [navCleanB, hnav] at hp
      simp at hp
    · rw [navCleanB, hnav] at hp
      simp only [Bool.not_eq_true'] at hp
      dsimp only
      rw [if_neg (by rw [hp]; simp)]
      have hpj : pageJobs cfg pnum = extract_jobs_from_page f a := by
        rw [pageJobs, hnav]
      set st0 : St :=
        { ledger := st.ledger,
          trace := st.trace ++ [Ev.visit pnum (paginate_url cfg.url pnum)],
          tick := st.tick } with hst0
      have hv0 : visitedNums (processRev cfg (extract_jobs_from_page f a).reverse st0).trace
          = visitedNums st.trace ++ [pnum] := by
        rw [proc_visited, hst0]
        dsimp only
        rw [visitedNums_append]
        rfl
      by_cases hz : (extract_jobs_from_page f a).length = 0
      · rw [if_pos hz]
        dsimp only
        rw [hv0, visitSpec, hpj, if_pos hz]
      · rw [if_neg hz]
        rw [ih (pnum + 1) _ (by
          intro q hq
          refine hcl q ?_
          rw [List.mem_range'_1] at hq ⊢
          omega)]
        rw [hv0, visitSpec, hpj, if_neg hz]
        simp

theorem visitSpec_char (cfg : Config) :
    ∀ fuel pnum, 1 ≤ fuel →
      ∃ k, 1 ≤ k ∧ k ≤ fuel ∧ visitSpec cfg fuel pnum = List.range' pnum k ∧
        (∀ m, pnum ≤ m → m < pnum + (k - 1) → 1 ≤ (pageJobs cfg m).length) ∧
        (k = fuel ∨ (pageJobs cfg (pnum + (k - 1))).length = 0) := by
  intro fuel
  induction fuel with
  | zero => intro pnum h; omega
  | succ fuel ih =>
    intro pnum _
    by_cases hz : (pageJobs cfg pnum).length = 0
    · refine ⟨1, le_refl 1, by omega, ?_, ?_, ?_⟩
      · rw [visitSpec, if_pos hz]
        rfl
      · intro m h1 h2
        omega
      · right
        simpa using hz
    · rcases Nat.eq_zero_or_pos fuel with hf | hf
      · subst hf
        refine ⟨1, le_refl 1, le_refl 1, ?_, ?_, Or.inl rfl⟩
        · rw [visitSpec, if_neg hz]
          rfl
        · intro m h1 h2
          omega
      · obtain ⟨k', hk1, hk2, hspec, hall, hstop⟩ := ih (pnum + 1) hf
        refine ⟨k' + 1, by omega, by omega, ?_, ?_, ?_⟩
        · rw [visitSpec, if_neg hz, hspec]
          rfl
        · intro m h1 h2
          rcases Nat.eq_or_lt_of_le h1 with he | hlt
          · rw [← he]
            omega
          · refine hall m hlt ?_
            omega
        · rcases hstop with h | h
          · exact Or.inl (by omega)
          · right
            have : pnum + (k' + 1 - 1) = pnum + 1 + (k' - 1) := by omega
            rw [this]
            exact h

/-- C3: with every page rendering cleanly (no timeout, no auth block), the
run visits exactly an initial segment `[1..k]` of pages with every page
before the last non-empty and the last page either the `MAX_PAGES` cap or
an empty page; consequently page `n+1` is visited exactly when page `n` was
visited, yielded at least one posting, and `n < MAX_PAGES`. Concretely,
page yields (3, 2, 0) visit exactly pages 1, 2, 3, and `MAX_PAGES = 2` with
non-empty pages visits exactly pages 1, 2. -/
theorem c3_pagination_transitions :
    (∀ (cfg : Config) (l : List (String × String)), 1 ≤ cfg.maxPages →
      (∀ q ∈ List.range' 1 cfg.maxPages, navCleanB cfg q = true) →
      ∃ k, 1 ≤ k ∧ k ≤ cfg.maxPages ∧
        visitedNums ((check_once cfg l).2).trace = List.range' 1 k ∧
        (∀ m, 1 ≤ m → m < k → 1 ≤ (pageJobs cfg m).length) ∧
        (k = cfg.maxPages ∨ (pageJobs cfg k).length = 0) ∧
        (∀ n, 1 ≤ n →
          ((n + 1) ∈ visitedNums ((check_once cfg l).2).trace ↔
            n ∈ visitedNums ((check_once cfg l).2).trace ∧
              1 ≤ (pageJobs cfg n).length ∧ n < cfg.maxPages))) ∧
    visitedNums ((check_once cfgYield320 []).2).trace = [1, 2, 3] ∧
    visitedNums ((check_once cfgCap2 []).2).trace = [1, 2] := by
  refine ⟨?_, by decide, by decide⟩
  intro cfg l hmax hcl
  obtain ⟨k, hk1, hk2, hspec, hall, hstop⟩ := visitSpec_char cfg cfg.maxPages 1 hmax
  have hvis : visitedNums ((check_once cfg l).2).trace = List.range' 1 k := by
    rw [check_once, crawl_visit_spec cfg cfg.maxPages 1 _ hcl, hspec]
    rfl
  have hall' : ∀ m, 1 ≤ m → m < k → 1 ≤ (pageJobs cfg m).length := by
    intro m h1 h2
    exact hall m h1 (by omega)
  have hstop' : k = cfg.maxPages ∨ (pageJobs cfg k).length = 0 := by
    rcases hstop with h | h
    · exact Or.inl h
    · right
      have : 1 + (k - 1) = k := by omega
      rw [this] at h
      exact h
  refine ⟨k, hk1, hk2, hvis, hall', hstop', ?_⟩
  intro n hn
  rw [hvis]
  rw [List.mem_range'_1, List.mem_range'_1]
  constructor
  · intro h
    refine ⟨by omega, hall' n hn (by omega), by omega⟩
  · rintro ⟨h1, h2, h3⟩
    refine ⟨by omega, ?_⟩
    by_cases hnk : n = k
    · exfalso
      rcases hstop' with h | h
      · omega
      · rw [← hnk] at h
        omega
    · omega

/-- Witness for C3: the clean-pages hypothesis holds for the (3, 2, 0)
configuration, and the characterization applies to it. -/
theorem c3_witness :
    1 ≤ cfgYield320.maxPages ∧
    (∀ q ∈ List.range' 1 cfgYield320.maxPages, navCleanB cfgYield320 q = true) ∧
    (∃ k, 1 ≤ k ∧ k ≤ cfgYield320.maxPages ∧
      visitedNums ((check_once cfgYield320 []).2).trace = List.range' 1 k ∧
      (∀ m, 1 ≤ m → m < k → 1 ≤ (pageJobs cfgYield320 m).length) ∧
      (k = cfgYield320.maxPages ∨ (pageJobs cfgYield320 k).length = 0) ∧
      (∀ n, 1 ≤ n →
        ((n + 1) ∈ visitedNums ((check_once cfgYield320 []).2).trace ↔
          n ∈ visitedNums ((check_once cfgYield320 []).2).trace ∧
            1 ≤ (pageJobs cfgYield320 n).length ∧ n < cfgYield320.maxPages))) :=
  ⟨by decide, by decide,
   c3_pagination_transitions.1 cfgYield320 [] (by decide) (by decide)⟩

theorem range'_snoc (s n : Nat) : List.range' s (n + 1) = List.range' s n ++ [s + n] := by
  induction n generalizing s with
  | zero => simp [List.range']
  | succ n ih =>
    have h1 : List.range' s (n + 1 + 1) = s :: List.range' (s + 1) (n + 1) := rfl
    have h2 : List.range' s (n + 1) = s :: List.range' (s + 1) n := rfl
    rw [h1, ih (s + 1), h2]
    simp only [List.cons_append]
    have : s + 1 + n = s + (n + 1) := by omega
    rw [this]

theorem crawl_login_step (cfg : Config) (fuel pnum : Nat) (st : St) (f c : String)
    (a : List Anchor) (hnav : cfg.nav (paginate_url cfg.url pnum) = NavResult.page f c a)
    (hlog : looks_like_login_or_challenge f c = true) :
    crawlFrom cfg (fuel + 1) pnum st =
      (Except.ok (),
        { st with trace := st.trace ++ [Ev.visit pnum (paginate_url cfg.url pnum)] }) := by
  rw [crawlFrom]
  dsimp only
  rw [hnav]
  dsimp only
  rw [if_pos hlog]

theorem crawl_timeout_step (cfg : Config) (fuel pnum : Nat) (st : St)
    (hnav : cfg.nav (paginate_url cfg.url pnum) = NavResult.timeout) :
    crawlFrom cfg (fuel + 1) pnum st =
      (Except.error (),
        { st with trace := st.trace ++ [Ev.visit pnum (paginate_url cfg.url pnum)] }) := by
  rw [crawlFrom]
  dsimp only
  rw [hnav]

theorem crawl_clean_steps (cfg : Config) :
    ∀ (j fuel pnum : Nat) (st : St), j < fuel →
      (∀ q ∈ List.range' pnum j, navCleanB cfg q = true ∧ 1 ≤ (pageJobs cfg q).length) →
      ∃ st', crawlFrom cfg fuel pnum st = crawlFrom cfg (fuel - j) (pnum + j) st' ∧
        visitedNums st'.trace = visitedNums st.trace ++ List.range' pnum j := by
  intro j
  induction j with
  | zero =>
    intro fuel pnum st _ _
    exact ⟨st, by rw [Nat.sub_zero, Nat.add_zero], by simp⟩
  | succ j ih =>
    intro fuel pnum st hj hcl
    obtain ⟨f', hf'⟩ : ∃ f', fuel = f' + 1 := ⟨fuel - 1, by omega⟩
    subst hf'
    have hp := hcl pnum (by
      rw [List.mem_range'_1]
      omega)
    have hpc : navCleanB cfg pnum = true := hp.1
    have hpy : 1 ≤ (pageJobs cfg pnum).length := hp.2
    rcases hnav : cfg.nav (paginate_url cfg.url pnum) with _ | ⟨f, c, a⟩
    · rw [navCleanB, hnav] at hpc
      simp at hpc
    · rw [navCleanB, hnav] at hpc
      simp only [Bool.not_eq_true'] at hpc
      have hpj : pageJobs cfg pnum = extract_jobs_from_page f a := by
        rw [pageJobs, hnav]
      rw [hpj] at hpy
      have hz : ¬((extract_jobs_from_page f a).length = 0) := by omega
      rw [crawlFrom]
      dsimp only
      rw [hnav]
      dsimp only
      rw [if_neg (by rw [hpc]; simp), if_neg hz]
      set st0 : St :=
        { ledger := st.ledger,
          trace := st.trace ++ [Ev.visit pnum (paginate_url cfg.url pnum)],
          tick := st.tick } with hst0
      set st1 := processRev cfg (extract_jobs_from_page f a).reverse st0 with hst1
      obtain ⟨st', he, hv⟩ := ih f' (pnum + 1) st1 (by omega) (by
        intro q hq
        refine hcl q ?_
        rw [List.mem_range'_1] at hq ⊢
        omega)
      refine ⟨st', ?_, ?_⟩
      · rw [he]
        have h1 : f' + 1 - (j + 1) = f' - j := by omega
        have h2 : pnum + (j + 1) = pnum + 1 + j := by omega
        rw [h1, h2]
      · rw [hv, hst1, proc_visited, hst0]
        dsimp only
        rw [visitedNums_append]
        have : List.range' pnum (j + 1) = pnum :: List.range' (pnum + 1) j := rfl
        rw [this]
        simp [visitedNums]

/-- C6: when a navigated page trips the login/verification heuristic the
loop breaks at once: (i) stepping `crawlFrom` on such a page returns
normally having added only the visit event (no sends, no records, no later
pages, ledger untouched, no error); (ii) a whole run whose pages are clean
and non-empty up to page `p-1` and auth-blocked at page `p` ends `ok`,
visits exactly pages 1..p, and its trace ends at the page-`p` visit —
zero notifications for page `p` and nothing after it. -/
theorem c6_auth_block_short_circuit :
    (∀ (cfg : Config) (fuel pnum : Nat) (st : St) (f c : String) (a : List Anchor),
      cfg.nav (paginate_url cfg.url pnum) = NavResult.page f c a →
      looks_like_login_or_challenge f c = true →
      crawlFrom cfg (fuel + 1) pnum st =
        (Except.ok (),
          { st with trace := st.trace ++ [Ev.visit pnum (paginate_url cfg.url pnum)] })) ∧
    (∀ (cfg : Config) (l : List (String × String)) (p : Nat), 1 ≤ p → p ≤ cfg.maxPages →
      (∀ q ∈ List.range' 1 (p - 1), navCleanB cfg q = true ∧ 1 ≤ (pageJobs cfg q).length) →
      authBlockB cfg p = true →
      (check_once cfg l).1 = Except.ok () ∧
      visitedNums ((check_once cfg l).2).trace = List.range' 1 p ∧
      ((check_once cfg l).2).trace.getLast? =
        some (Ev.visit p (paginate_url cfg.url p))) := by
  refine ⟨crawl_login_step, ?_⟩
  intro cfg l p hp1 hpmax hcl hab
  obtain ⟨st', he, hv⟩ := crawl_clean_steps cfg (p - 1) cfg.maxPages 1
    { ledger := l, trace := [], tick := 0 } (by omega) hcl
  have hpe : 1 + (p - 1) = p := by omega
  rw [hpe] at he
  obtain ⟨fu, hfu⟩ : ∃ fu, cfg.maxPages - (p - 1) = fu + 1 := ⟨cfg.maxPages - (p - 1) - 1, by omega⟩
  rw [hfu] at he
  rcases hnav : cfg.nav (paginate_url cfg.url p) with _ | ⟨f, c, a⟩
  · rw [authBlockB, hnav] at hab
    simp at hab
  · rw [authBlockB, hnav] at hab
    have hstep := crawl_login_step cfg fu p st' f c a hnav hab
    rw [check_once, he, hstep]
    refine ⟨rfl, ?_, ?_⟩
    · dsimp only
      rw [visitedNums_append, hv]
      have h1 : visitedNums [Ev.visit p (paginate_url cfg.url p)] = [p] := rfl
      rw [h1]
      have h2 : visitedNums ({ ledger := l, trace := [], tick := 0 } : St).trace = [] := rfl
      rw [h2]
      have h3 : List.range' 1 (p - 1) ++ [p] = List.range' 1 p := by
        have hr := range'_snoc 1 (p - 1)
        have hpe2 : p - 1 + 1 = p := by omega
        rw [hpe, hpe2] at hr
        exact hr.symm
      rw [List.nil_append, h3]
    · dsimp only
      exact List.getLast?_concat _

/-- Witness for C6: page 1 clean and non-empty, page 2 is a login page. -/
theorem c6_witness :
    1 ≤ 2 ∧ 2 ≤ cfgLogin2.maxPages ∧
    (∀ q ∈ List.range' 1 (2 - 1), navCleanB cfgLogin2 q = true ∧
      1 ≤ (pageJobs cfgLogin2 q).length) ∧
    authBlockB cfgLogin2 2 = true ∧
    (check_once cfgLogin2 []).1 = Except.ok () ∧
    visitedNums ((check_once cfgLogin2 []).2).trace = List.range' 1 2 ∧
    ((check_once cfgLogin2 []).2).trace.getLast? =
      some (Ev.visit 2 (paginate_url cfgLogin2.url 2)) := by
  refine ⟨by decide, by decide, by decide, by decide, ?_⟩
  have := c6_auth_block_short_circuit.2 cfgLogin2 [] 2 (by decide) (by decide)
    (by decide) (by decide)
  exact this

/-- Counterexample for C9: with every navigation timing out, the timeout of
the very first page makes the whole run abort with an error — `check_once` does
not return normally, so the failure is not confined to the current page nor
surfaced only as a diagnostic. -/
theorem c9_cex :
    (check_once cfgTimeout []).1 = Except.error () ∧
    ¬((check_once cfgTimeout []).1 = Except.ok ()) := by
  constructor
  · rfl
  · intro h
    have h2 : (Except.error () : Except Unit Unit) = Except.ok () := by
      rw [← h]
      rfl
    exact Except.noConfusion h2

/-- C9 (amended): a navigation timeout aborts the whole run, not just the
page: (i) stepping `crawlFrom` on a timing-out page returns the error
having added only the visit event; (ii) a run clean and non-empty up to
page `p-1` that times out at page `p` ends in the error, visits exactly
pages 1..p, and its trace stops at the page-`p` visit; (iii) ledger rows
present when the run starts are still present after it (writes committed
before the abort survive); (iv) the `RUN_FOREVER` loop body catches the
escaped exception and continues with the ledger left by the run. -/
theorem c9_timeout_amended :
    (∀ (cfg : Config) (fuel pnum : Nat) (st : St),
      cfg.nav (paginate_url cfg.url pnum) = NavResult.timeout →
      crawlFrom cfg (fuel + 1) pnum st =
        (Except.error (),
          { st with trace := st.trace ++ [Ev.visit pnum (paginate_url cfg.url pnum)] })) ∧
    (∀ (cfg : Config) (l : List (String × String)) (p : Nat), 1 ≤ p → p ≤ cfg.maxPages →
      (∀ q ∈ List.range' 1 (p - 1), navCleanB cfg q = true ∧ 1 ≤ (pageJobs cfg q).length) →
      timeoutAtB cfg p = true →
      (check_once cfg l).1 = Except.error () ∧
      visitedNums ((check_once cfg l).2).trace = List.range' 1 p ∧
      ((check_once cfg l).2).trace.getLast? =
        some (Ev.visit p (paginate_url cfg.url p))) ∧
    (∀ (cfg : Config) (l : List (String × String)) (id : String),
      seenL l id = true → seenL ((check_once cfg l).2).ledger id = true) ∧
    (∀ (cfg : Config) (l : List (String × String)),
      loop_cycle cfg l = ((check_once cfg l).2).ledger) := by
  refine ⟨crawl_timeout_step, ?_, ?_, ?_⟩
  · intro cfg l p hp1 hpmax hcl hto
    obtain ⟨st', he, hv⟩ := crawl_clean_steps cfg (p - 1) cfg.maxPages 1
      { ledger := l, trace := [], tick := 0 } (by omega) hcl
    have hpe : 1 + (p - 1) = p := by omega
    rw [hpe] at he
    obtain ⟨fu, hfu⟩ : ∃ fu, cfg.maxPages - (p - 1) = fu + 1 :=
      ⟨cfg.maxPages - (p - 1) - 1, by omega⟩
    rw [hfu] at he
    rcases hnav : cfg.nav (paginate_url cfg.url p) with _ | ⟨f, c, a⟩
    · have hstep := crawl_timeout_step cfg fu p st' hnav
      rw [check_once, he, hstep]
      refine ⟨rfl, ?_, ?_⟩
      · dsimp only
        rw [visitedNums_append, hv]
        have h1 : visitedNums [Ev.visit p (paginate_url cfg.url p)] = [p] := rfl
        have h2 : visitedNums ({ ledger := l, trace := [], tick := 0 } : St).trace = [] := rfl
        rw [h1, h2]
        have h3 : List.range' 1 (p - 1) ++ [p] = List.range' 1 p := by
          have hr := range'_snoc 1 (p - 1)
          have hpe2 : p - 1 + 1 = p := by omega
          rw [hpe, hpe2] at hr
          exact hr.symm
        rw [List.nil_append, h3]
      · dsimp only
        exact List.getLast?_concat _
    · rw [timeoutAtB, hnav] at hto
      simp at hto
  · intro cfg l id h
    exact crawl_seen_mono cfg cfg.maxPages 1 _ id h
  · intro cfg l
    rw [loop_cycle]
    rcases hc : check_once cfg l with ⟨e, st⟩
    cases e <;> rfl

/-- Witness for C9 (amended): page 1 clean with one posting, page 2 times
out; the run errors out after visiting pages 1 and 2. -/
theorem c9_witness :
    1 ≤ 2 ∧ 2 ≤ cfgTimeout2.maxPages ∧
    (∀ q ∈ List.range' 1 (2 - 1), navCleanB cfgTimeout2 q = true ∧
      1 ≤ (pageJobs cfgTimeout2 q).length) ∧
    timeoutAtB cfgTimeout2 2 = true ∧
    (check_once cfgTimeout2 []).1 = Except.error () ∧
    visitedNums ((check_once cfgTimeout2 []).2).trace = List.range' 1 2 ∧
    ((check_once cfgTimeout2 []).2).trace.getLast? =
      some (Ev.visit 2 (paginate_url cfgTimeout2.url 2)) := by
  refine ⟨by decide, by decide, by decide, by decide, ?_⟩
  exact c9_timeout_amended.2.1 cfgTimeout2 [] 2 (by decide) (by decide) (by decide) (by decide)

/-! ### Pagination-URL lemmas -/

theorem listContains_nil_needle (hay : List Char) : listContains [] hay = true := by
  cases hay <;> rfl

theorem listContains_of_isPrefixOf (needle hay : List Char)
    (h : needle.isPrefixOf hay = true) : listContains needle hay = true := by
  cases hay with
  | nil =>
    have hn : needle = [] := List.prefix_nil.mp (List.isPrefixOf_iff_prefix.mp h)
    rw [hn]
    rfl
  | cons c rest =>
    rw [listContains, h]
    rfl

theorem listContains_cons_false (needle : List Char) (c : Char) (rest : List Char)
    (h : listContains needle (c :: rest) = false) :
    needle.isPrefixOf (c :: rest) = false ∧ listContains needle rest = false := by
  rw [listContains] at h
  simpa only [Bool.or_eq_false_iff] using h

theorem listContains_append_mid (needle xs ys : List Char) :
    listContains needle (xs ++ (needle ++ ys)) = true := by
  induction xs with
  | nil =>
    rw [List.nil_append]
    cases needle with
    | nil => exact listContains_nil_needle _
    | cons m ms =>
      have hpre : (m :: ms).isPrefixOf ((m :: ms) ++ ys) = true :=
        List.isPrefixOf_iff_prefix.mpr (List.prefix_append _ _)
      rw [List.cons_append] at hpre ⊢
      rw [listContains, hpre]
      rfl
  | cons x xs' ih =>
    rw [List.cons_append, listContains, ih]
    simp

theorem pat_not_prefix_boundary (pre : List Char) (c : Char) (zs : List Char)
    (hc : c = '?' ∨ c = '&') (hnc : listContains pagePat pre = false) :
    pagePat.isPrefixOf (pre ++ c :: zs) = false := by
  by_contra hcon
  simp only [Bool.not_eq_false] at hcon
  have hpfx : pagePat <+: pre ++ c :: zs := List.isPrefixOf_iff_prefix.mp hcon
  by_cases h5 : pagePat.length ≤ pre.length
  · have hpre : pagePat <+: pre :=
      List.prefix_of_prefix_length_le hpfx (List.prefix_append _ _) h5
    have : listContains pagePat pre = true :=
      listContains_of_isPrefixOf _ _ (List.isPrefixOf_iff_prefix.mpr hpre)
    rw [this] at hnc
    exact Bool.noConfusion hnc
  · push_neg at h5
    obtain ⟨t, ht⟩ := hpfx
    have hdrop : pagePat.drop pre.length ++ t = c :: zs := by
      have h1 : (pagePat ++ t).drop pre.length = pagePat.drop pre.length ++ t :=
        List.drop_append_of_le_length (by omega)
      have h2 : (pre ++ c :: zs).drop pre.length = c :: zs := List.drop_left _ _
      rw [← h1, ht, h2]
    have hlen : pre.length < 5 := h5
    set k := pre.length with hk
    rw [show pagePat = ['p', 'a', 'g', 'e', '='] from rfl] at hdrop
    interval_cases k <;> (rcases hc with hc | hc <;> subst hc <;> simp at hdrop)

theorem subPageF_scan (n : Nat) (c : Char) (zs : List Char) (hc : c = '?' ∨ c = '&') :
    ∀ (pre : List Char) (fuel : Nat), listContains pagePat pre = false →
      subPageF n (pre.length + fuel) (pre ++ c :: zs) = pre ++ subPageF n fuel (c :: zs) := by
  intro pre
  induction pre with
  | nil =>
    intro fuel _
    rw [List.length_nil, Nat.zero_add, List.nil_append, List.nil_append]
  | cons x pre' ih =>
    intro fuel hnc
    obtain ⟨_, hnc'⟩ := listContains_cons_false _ _ _ hnc
    have hlen : (x :: pre').length + fuel = (pre'.length + fuel) + 1 := by
      rw [List.length_cons]
      omega
    rw [hlen, List.cons_append, subPageF]
    have hmid : pagePat.isPrefixOf (pre' ++ c :: zs) = false :=
      pat_not_prefix_boundary pre' c zs hc hnc'
    rw [if_neg (by rw [hmid]; simp), ih fuel hnc']
    simp

theorem dropWhile_digits (digits post : List Char)
    (hall : ∀ d ∈ digits, d.isDigit = true) (hpost : isDigitHead post = false) :
    (digits ++ post).dropWhile Char.isDigit = post := by
  induction digits with
  | nil =>
    cases post with
    | nil => rfl
    | cons p ps =>
      have hp : p.isDigit = false := hpost
      simp [List.dropWhile_cons, hp]
  | cons d ds ih =>
    have hd := hall d (List.mem_cons_self _ _)
    rw [List.cons_append]
    simp [List.dropWhile_cons, hd, ih fun x hx => hall x (List.mem_cons_of_mem _ hx)]

theorem subPageF_fire (n : Nat) (c : Char) (digits post : List Char) (fuel : Nat)
    (hc : c = '?' ∨ c = '&') (hd : digits ≠ []) (hall : ∀ d ∈ digits, d.isDigit = true)
    (hpost : isDigitHead post = false) :
    subPageF n (fuel + 1) (c :: (pagePat ++ (digits ++ post)))
      = c :: (pagePat ++ (Nat.repr n).data ++ subPageF n fuel post) := by
  have hc' : (c == '?' || c == '&') = true := by
    rcases hc with h | h <;> subst h <;> decide
  have hpre : pagePat.isPrefixOf (pagePat ++ (digits ++ post)) = true :=
    List.isPrefixOf_iff_prefix.mpr (List.prefix_append _ _)
  have hdrop5 : (pagePat ++ (digits ++ post)).drop 5 = digits ++ post := by
    rw [show (5 : Nat) = pagePat.length from rfl, List.drop_left]
  have hdig : isDigitHead ((pagePat ++ (digits ++ post)).drop 5) = true := by
    rw [hdrop5]
    cases digits with
    | nil => exact absurd rfl hd
    | cons d ds =>
      have := hall d (List.mem_cons_self _ _)
      rw [List.cons_append]
      exact this
  rw [subPageF, if_pos (by rw [hc', hpre, hdig]; rfl)]
  rw [hdrop5, dropWhile_digits digits post hall hpost]

theorem hasPagePatB_false_of_not_contains (cs : List Char)
    (h : listContains pagePat cs = false) : hasPagePatB cs = false := by
  induction cs with
  | nil => rfl
  | cons c rest ih =>
    obtain ⟨_, hrest⟩ := listContains_cons_false _ _ _ h
    have hpfx' : pagePat.isPrefixOf rest = false := by
      cases rest with
      | nil => decide
      | cons r rs => exact (listContains_cons_false _ _ _ hrest).1
    rw [hasPagePatB]
    simp [hpfx', ih hrest]

theorem subPageF_no_pat (n : Nat) : ∀ (cs : List Char) (fuel : Nat),
    hasPagePatB cs = false → subPageF n fuel cs = cs := by
  intro cs
  induction cs with
  | nil => intro fuel _; cases fuel <;> rfl
  | cons c rest ih =>
    intro fuel h
    rw [hasPagePatB] at h
    simp only [Bool.or_eq_false_iff] at h
    cases fuel with
    | zero => rfl
    | succ fuel =>
      rw [subPageF, if_neg (by rw [h.1]; simp), ih fuel h.2]

/-- Counterexample for C7: the URL `http://ex.com/a?mypage=3` has no
page-number query parameter (only `mypage`), yet `paginate_url` returns it
unchanged instead of appending one — `"page=" in url` is true as a
substring of `mypage=3`, so the append branch is never reached while the
regex finds nothing to replace. -/
theorem c7_cex :
    paginate_url "http://ex.com/a?mypage=3" 2 = "http://ex.com/a?mypage=3" ∧
    paginate_url "http://ex.com/a?mypage=3" 2 ≠ "http://ex.com/a?mypage=3&page=2" := by
  exact ⟨by decide, by decide⟩

/-- C7 (amended): (i) when the URL does not contain the substring `page=`
at all, a page parameter is appended (`?page=n` without an existing query,
`&page=n` with one) and the URL is otherwise preserved verbatim; (ii) when
the URL is of the form `pre [?&] page=<digits> post` with the literal
`page=` occurring nowhere else and the digit run maximal, exactly the page
number is replaced and everything else is preserved verbatim; (iii) when
the URL contains `page=` only in positions that do not form a
`[?&]page=<digit>` match, it is returned unchanged — no parameter is
appended. -/
theorem c7_paginate_amended :
    (∀ (url : String) (n : Nat), listContains pagePat url.data = false →
      paginate_url url n =
        url ++ (if listContains ['?'] url.data then "&" else "?") ++ "page=" ++ Nat.repr n) ∧
    (∀ (pre digits post : List Char) (c : Char) (n : Nat),
      (c = '?' ∨ c = '&') → digits ≠ [] → (∀ d ∈ digits, d.isDigit = true) →
      isDigitHead post = false → listContains pagePat pre = false →
      listContains pagePat post = false →
      paginate_url (String.mk (pre ++ c :: (pagePat ++ (digits ++ post)))) n =
        String.mk (pre ++ c :: (pagePat ++ (Nat.repr n).data ++ post))) ∧
    (∀ (url : String) (n : Nat), listContains pagePat url.data = true →
      hasPagePatB url.data = false → paginate_url url n = url) := by
  refine ⟨?_, ?_, ?_⟩
  · intro url n h
    rw [paginate_url, if_neg (by rw [h]; simp)]
  · intro pre digits post c n hc hd hall hpost hnpre hnpost
    have hshape : pre ++ c :: (pagePat ++ (digits ++ post))
        = (pre ++ [c]) ++ (pagePat ++ (digits ++ post)) := by simp
    have hcontains :
        listContains pagePat (pre ++ c :: (pagePat ++ (digits ++ post))) = true := by
      rw [hshape]
      exact listContains_append_mid pagePat (pre ++ [c]) (digits ++ post)
    rw [paginate_url]
    simp only [show (String.mk (pre ++ c :: (pagePat ++ (digits ++ post)))).data
      = pre ++ c :: (pagePat ++ (digits ++ post)) from rfl]
    rw [if_pos hcontains, subPage]
    have hlen : (pre ++ c :: (pagePat ++ (digits ++ post))).length
        = pre.length + ((pagePat ++ (digits ++ post)).length + 1) := by
      rw [List.length_append, List.length_cons]
    rw [hlen, subPageF_scan n c (pagePat ++ (digits ++ post)) hc pre
      ((pagePat ++ (digits ++ post)).length + 1) hnpre]
    rw [subPageF_fire n c digits post (pagePat ++ (digits ++ post)).length hc hd hall hpost]
    rw [subPageF_no_pat n post _ (hasPagePatB_false_of_not_contains post hnpost)]
  · intro url n h1 h2
    rw [paginate_url, if_pos h1, subPage, subPageF_no_pat n url.data _ h2]

/-- Witness for C7 (amended): replacing `page=1` with `page=4` in the real
Seekube URL shape. -/
theorem c7_witness :
    (('?' : Char) = '?' ∨ ('?' : Char) = '&') ∧ (['1'] : List Char) ≠ [] ∧
    (∀ d ∈ (['1'] : List Char), d.isDigit = true) ∧
    isDigitHead ([] : List Char) = false ∧
    listContains pagePat "https://app.seekube.com/x".data = false ∧
    listContains pagePat ([] : List Char) = false ∧
    paginate_url (String.mk ("https://app.seekube.com/x".data ++
        '?' :: (pagePat ++ (['1'] ++ [])))) 4 =
      String.mk ("https://app.seekube.com/x".data ++
        '?' :: (pagePat ++ (Nat.repr 4).data ++ [])) :=
  ⟨Or.inl rfl, by decide, by decide, by decide, by decide, by decide,
   c7_paginate_amended.2.1 "https://app.seekube.com/x".data ['1'] [] '?' 4
     (Or.inl rfl) (by decide) (by decide) (by decide) (by decide) (by decide)⟩

end Watcher
